import Mathlib

set_option maxRecDepth 100000

/-!
Shallow embedding of the anonP2P repository core: the Kademlia DHT node
(routing table, storage, FIND_VALUE protocol), the anonymous identity's
ephemeral keys, the onion routing engine, and the overlay node's dispatch
and anonymous-send path.

Conventions of the embedding:
* 160-bit identifiers and SHA-1 key hashes travel as lowercase hex strings
  in the source; they are modelled as their byte sequences (`List Nat`,
  each byte < 256).  `localeCompare` on two equal-length lowercase hex
  strings is exactly lexicographic byte-list comparison, which `lexLE`
  implements.
* RSA keypairs are modelled symbolically: a keypair is a `Nat` identifier,
  `crypto.publicEncrypt` pairs the plaintext with the key identifier, and
  `crypto.privateDecrypt` succeeds exactly on the matching identifier
  (real RSA decryption with a non-matching key fails, raising the
  source's `Decryption failed` error, modelled as `none`).
* `Date.now()` and all random choices (`crypto.randomBytes`) are explicit
  parameters.
* JavaScript `Map` objects are modelled as update functions to `Option`.
-/

namespace AnonP2P

/-! Byte-level primitives (KademliaNode.js `xorDistance`, `getBucketIndex`). -/

/-- Embedding of `xorDistance(a, b)`: a buffer of `a.length` bytes whose
`i`-th byte is `a[i] ^ b[i]` (an out-of-range read of `b` contributes 0). -/
def xorDistance (a b : List Nat) : List Nat :=
  (List.range a.length).map (fun i => a.getD i 0 ^^^ b.getD i 0)

/-- Inner loop of `getBucketIndex`: the first `j < 8` such that bit `7 - j`
of the byte is set (`buffer[i] & (1 << (7 - j))`). -/
def findBitInByte (byte : Nat) : Option Nat :=
  (List.range 8).find? (fun j => byte &&& (1 <<< (7 - j)) != 0)

/-- Outer loop of `getBucketIndex` over the distance buffer, carrying the
byte index; falls through to 159 when every byte is zero. -/
def bucketScan : List Nat → Nat → Nat
  | [], _ => 159
  | byte :: rest, i =>
    match findBitInByte byte with
    | some j => i * 8 + j
    | none => bucketScan rest (i + 1)

/-- Embedding of `getBucketIndex(nodeId)` of a node whose own id is
`selfId`. -/
def getBucketIndex (selfId otherId : List Nat) : Nat :=
  bucketScan (xorDistance selfId otherId) 0

/-- Specification-level bit access on a big-endian byte sequence: bit `b`
with bit 0 the most significant bit of byte 0. -/
def bitAt (d : List Nat) (b : Nat) : Bool :=
  (d.getD (b / 8) 0).testBit (7 - b % 8)

/-! Routing table (KademliaNode.js `addNode`, `findClosestNodes`). -/

/-- A routing-table contact: `{ id, address, lastSeen }`. -/
structure Contact where
  id : List Nat
  address : String
  lastSeen : Nat
deriving DecidableEq, Repr

/-- Embedding of `addNode(nodeId, address)`: the fixed 160-slot bucket
array is modelled by its index function.  The first entry with the same
id is spliced out, the fresh contact is unshifted, and when the bucket
exceeds `k` entries its last entry is popped. -/
def addNode (k : Nat) (selfId : List Nat) (buckets : Nat → List Contact)
    (nodeId : List Nat) (address : String) (now : Nat) : Nat → List Contact :=
  let bucketIndex := getBucketIndex selfId nodeId
  let bucket := buckets bucketIndex
  let removed := bucket.eraseP (fun node => node.id == nodeId)
  let pushed := ({ id := nodeId, address := address, lastSeen := now } : Contact) :: removed
  let finalBucket := if pushed.length > k then pushed.dropLast else pushed
  fun j => if j = bucketIndex then finalBucket else buckets j

/-- One `observe` event fed to the routing table (a received frame's
sender id and endpoint at some time). -/
structure Observation where
  nodeId : List Nat
  address : String
  time : Nat
deriving DecidableEq, Repr

/-- The freshly constructed routing table: 160 empty buckets. -/
def emptyTable : Nat → List Contact := fun _ => []

/-- The routing table after a sequence of `addNode` observations. -/
def runObservations (k : Nat) (selfId : List Nat) (ops : List Observation) :
    Nat → List Contact :=
  ops.foldl (fun t o => addNode k selfId t o.nodeId o.address o.time) emptyTable

/-- Insertion step of the sort model. -/
def insertLe (le : α → α → Bool) (a : α) : List α → List α
  | [] => [a]
  | b :: rest => if le a b then a :: b :: rest else b :: insertLe le a rest

/-- Model of `Array.prototype.sort` with a comparator: for a comparator
that is a total preorder this produces a sorted permutation, which is the
unique result whenever no two elements tie. -/
def sortByLe (le : α → α → Bool) : List α → List α
  | [] => []
  | a :: rest => insertLe le a (sortByLe le rest)

/-- Lexicographic comparison of byte sequences; on equal-length lowercase
hex renderings this is exactly `a.localeCompare(b) <= 0`. -/
def lexLE : List Nat → List Nat → Bool
  | [], _ => true
  | _ :: _, [] => false
  | x :: xs, y :: ys => if x < y then true else if y < x then false else lexLE xs ys

/-- Embedding of `this.buckets.flat()`. -/
def allBuckets (table : Nat → List Contact) : List Contact :=
  ((List.range 160).map table).flatten

/-- Embedding of `findClosestNodes(target, count)`: annotate every contact
with its XOR distance to the target, sort by the hex-rendered distance,
and take the first `count`. -/
def findClosestNodes (table : Nat → List Contact) (target : List Nat) (count : Nat) :
    List (Contact × List Nat) :=
  (sortByLe (fun a b => lexLE a.2 b.2)
    ((allBuckets table).map (fun node => (node, xorDistance node.id target)))).take count

/-- Big-endian unsigned integer value of a byte sequence. -/
def bytesToNat (l : List Nat) : Nat := l.foldl (fun acc b => acc * 256 + b) 0

/-- Specification-side counterpart of `findClosestNodes`, written from the
claim's words: sort ascending by the XOR distance compared as a big-endian
unsigned integer, ties broken by the lexicographic endpoint string, then
truncate to `count`. -/
def closestBySpec (table : Nat → List Contact) (target : List Nat) (count : Nat) :
    List (Contact × List Nat) :=
  (sortByLe (fun a b =>
      decide (bytesToNat a.2 < bytesToNat b.2)
      || (decide (bytesToNat a.2 = bytesToNat b.2)
          && decide (a.1.address ≤ b.1.address)))
    ((allBuckets table).map (fun node => (node, xorDistance node.id target)))).take count

/-! DHT storage (KademliaNode.js `retrieve`, `sendFindValue`, `handleMessage`). -/

/-- A stored record `{ value, timestamp, ttl }`. -/
structure StorageEntry (α : Type) where
  value : α
  timestamp : Nat
  ttl : Nat
deriving DecidableEq, Repr

/-- Outcome of one entry of `Promise.allSettled`. -/
inductive Settled (α : Type) where
  | fulfilled (value : Option α)
  | rejected
deriving DecidableEq, Repr

/-- Embedding of `sendFindValue(address, key)`: the promise resolves in the
UDP send callback carrying no value at all (`resolve()`), or rejects on a
send error or the 5 s timeout.  The remote `FOUND` response is never read
by this promise. -/
def sendFindValue (sendOk : String → Bool) (address : String) : Settled α :=
  if sendOk address then .fulfilled none else .rejected

/-- The result loop of `retrieve`: the first settled result that is
fulfilled with a truthy value. -/
def firstFulfilledValue : List (Settled α) → Option α
  | [] => none
  | .fulfilled (some v) :: _ => some v
  | _ :: rest => firstFulfilledValue rest

/-- What a `retrieve` call produced: its return value and the addresses it
sent `FIND_VALUE` datagrams to. -/
structure RetrieveOutcome (α : Type) where
  value : Option α
  udp : List String
deriving DecidableEq, Repr

/-- Embedding of `retrieve(key)`: serve a fresh local entry directly
(no UDP); otherwise query the closest `alpha` contacts and scan the
settled results. -/
def retrieve (hash : String → List Nat) (sendOk : String → Bool)
    (storage : List Nat → Option (StorageEntry α)) (table : Nat → List Contact)
    (alpha k : Nat) (key : String) (now : Nat) : RetrieveOutcome α :=
  let keyHash := hash key
  let localHit : Option α :=
    match storage keyHash with
    | some stored => if now - stored.timestamp < stored.ttl then some stored.value else none
    | none => none
  match localHit with
  | some v => { value := some v, udp := [] }
  | none =>
    let closestNodes := findClosestNodes table keyHash k
    let queries := (closestNodes.take alpha).map (fun node => node.1.address)
    let results := queries.map (sendFindValue sendOk)
    { value := firstFulfilledValue results, udp := queries }

/-- A response frame of the `FIND_VALUE` handler. -/
inductive FindValueResponse (α : Type) where
  | found (value : α)
  | nodes (contacts : List (Contact × List Nat))
deriving DecidableEq, Repr

/-- Embedding of the `FIND_VALUE` arm of `handleMessage`: the sender is
first observed into the routing table, then a fresh stored entry is
answered with `FOUND` and anything else with `NODES` of the closest
contacts. -/
def handleFindValue (selfId : List Nat) (k : Nat)
    (storage : List Nat → Option (StorageEntry α)) (table : Nat → List Contact)
    (senderId : List Nat) (senderAddress : String) (key : List Nat) (now : Nat) :
    FindValueResponse α × (Nat → List Contact) :=
  let t1 := addNode k selfId table senderId senderAddress now
  match storage key with
  | some stored =>
    if now - stored.timestamp < stored.ttl then (.found stored.value, t1)
    else (.nodes (findClosestNodes t1 key k), t1)
  | none => (.nodes (findClosestNodes t1 key k), t1)

/-! Ephemeral identity keys (AnonymousIdentity.js). -/

/-- A `this.ephemeralKeys` entry `{ keyPair, created, uses }`; the RSA
keypair is an opaque identifier. -/
structure EphKey where
  keyPairId : Nat
  created : Nat
  uses : Nat
deriving DecidableEq, Repr

/-- The base64 signature returned by `crypto.sign`, modelled symbolically
by the signed message and the signing keypair. -/
structure SigValue where
  message : String
  keyPairId : Nat
deriving DecidableEq, Repr

/-- Pointwise update of the ephemeral-key map. -/
def updateMap (m : String → Option EphKey) (key : String) (v : Option EphKey) :
    String → Option EphKey :=
  fun kid => if kid = key then v else m kid

/-- Embedding of `signWithEphemeral(message, keyId)` at time `now`:
a missing handle throws (`none`); otherwise the use counter is
incremented, the key is deleted when the incremented state violates the
`uses > 100 || now - created > 3600000` bound, and the signature is
produced regardless and returned together with the new map. -/
def signWithEphemeral (ephemeralKeys : String → Option EphKey) (message : String)
    (keyId : String) (now : Nat) :
    Option ((String → Option EphKey) × SigValue) :=
  match ephemeralKeys keyId with
  | none => none
  | some eph =>
    let bumped : EphKey := { eph with uses := eph.uses + 1 }
    let afterBump := updateMap ephemeralKeys keyId (some bumped)
    let afterExpiry :=
      if bumped.uses > 100 ∨ now - eph.created > 3600000 then
        updateMap afterBump keyId none
      else afterBump
    some (afterExpiry, { message := message, keyPairId := eph.keyPairId })

/-! Onion engine (OnionRouter.js). -/

/-- An onion packet: the terminal `{ payload, timestamp }` record or an
encrypted layer `{ encrypted, nextHop }`.  A layer records the public key
its ciphertext was produced under and the decrypted inner packet; the
`nextHop` tag is the 32-hex-character string from `crypto.randomBytes(16)`
(so it is never the empty string, and JavaScript truthiness of the field
coincides with the packet being a layer). -/
inductive Packet where
  | terminal (payload : String) (timestamp : Nat)
  | layer (keyId : Nat) (encrypted : Packet) (nextHop : String)
deriving DecidableEq, Repr

/-- A circuit hop `{ id, publicKey, address }`. -/
structure Hop where
  id : List Nat
  publicKey : Nat
  address : String
deriving DecidableEq, Repr

/-- Embedding of `encryptLayer(data, publicKey)` with the random
`nextHop` tag made explicit. -/
def encryptLayer (data : Packet) (publicKey : Nat) (tag : String) : Packet :=
  .layer publicKey data tag

/-- Embedding of `decryptLayer(packet, privateKey)`: decryption succeeds
exactly on the matching keypair; decrypting a terminal record (which has
no `encrypted` field) throws `Decryption failed`. -/
def decryptLayer (packet : Packet) (privateKey : Nat) : Option Packet :=
  match packet with
  | .layer keyId inner _ => if keyId = privateKey then some inner else none
  | .terminal _ _ => none

/-- Embedding of `createOnionPacket(message, circuit)`: start from
`{ payload, timestamp }` and wrap layers from the exit hop inwards so the
outermost layer belongs to `circuit[0]`; the stream of random tags is an
explicit parameter. -/
def createOnionPacket (message : String) (now : Nat) :
    List Hop → List String → Packet
  | [], _ => .terminal message now
  | hop :: rest, tags =>
    encryptLayer (createOnionPacket message now rest (tags.drop 1)) hop.publicKey
      (tags.headD "tag")

/-- Successive peeling of a packet with a sequence of private keys, each
hop applying `decryptLayer` to what the previous hop produced; any
decryption failure aborts the run. -/
def peelSequence : Packet → List Nat → Option Packet
  | p, [] => some p
  | p, key :: keys =>
    match decryptLayer p key with
    | some q => peelSequence q keys
    | none => none

/-- The observable action a node takes on an inbound onion packet. -/
inductive NodeAction where
  | forward (packet : Packet) (endpoint : String)
  | deliver (payload : String)
  | drop
deriving DecidableEq, Repr

/-- Modelled from the spec: the body of `forwardOnionPacket` is absent
from the sources (only its call site in `processOnionPacket` appears);
per the spec the node opens an outbound stream to the endpoint, sends the
inner packet, and closes, which is represented abstractly by the
`NodeAction.forward` action. -/
def forwardOnionPacket (packet : Packet) (endpoint : String) : NodeAction :=
  .forward packet endpoint

/-- Embedding of `processOnionPacket`: peel one layer with the node's
private key; a decryption error is caught and logged (no action); a
decrypted record with a (truthy) `nextHop` field is forwarded there;
otherwise the payload is emitted as the `anonymousMessage` event. -/
def processOnionPacket (privateKey : Nat) (packet : Packet) : NodeAction :=
  match decryptLayer packet privateKey with
  | none => .drop
  | some (.layer keyId inner nextHop) => forwardOnionPacket (.layer keyId inner nextHop) nextHop
  | some (.terminal payload _) => .deliver payload

/-! Overlay node outbound path (AnonymousP2PNode.js `sendAnonymousMessage`,
`findCircuitNodes`; OnionRouter.js `buildCircuit`). -/

/-- Embedding of `findCircuitNodes(count)`: for each of the `count` random
keys, look up the single closest DHT contact and collect its id; an empty
lookup contributes nothing. -/
def findCircuitNodes (table : Nat → List Contact) (randomKeys : List (List Nat)) :
    List (List Nat) :=
  randomKeys.filterMap (fun key => (findClosestNodes table key 1).head?.map (fun c => c.1.id))

/-- Embedding of `buildCircuit(targetNodes)`: resolve each node id to its
public key and address, skipping ids that fail to resolve. -/
def buildCircuit (resolver : List Nat → Option (Nat × String)) (targetNodes : List (List Nat)) :
    List Hop :=
  targetNodes.filterMap (fun nodeId =>
    (resolver nodeId).map (fun info => { id := nodeId, publicKey := info.1, address := info.2 }))

/-- The stream frame written by `sendAnonymousMessage`. -/
structure WireMessage where
  type : String
  packet : Packet
  circuitId : String
deriving DecidableEq, Repr

/-- Embedding of `sendAnonymousMessage(message, targetPseudonym)`: build a
circuit from three random DHT lookups, wrap the message, and send the
envelope to the first hop's address (`none` models the crash on an empty
circuit, where `circuit[0]` is `undefined`).  All randomness (the lookup
keys, the circuit id, the layer tags) is explicit. -/
def sendAnonymousMessage (table : Nat → List Contact)
    (resolver : List Nat → Option (Nat × String)) (message targetPseudonym : String)
    (randomKeys : List (List Nat)) (circuitId : String) (tags : List String) (now : Nat) :
    Option (String × WireMessage) :=
  let circuitNodes := findCircuitNodes table randomKeys
  let circuit := buildCircuit resolver circuitNodes
  let packet := createOnionPacket message now circuit tags
  match circuit with
  | [] => none
  | firstHop :: _ =>
    some (firstHop.address, { type := "ONION_PACKET", packet := packet, circuitId := circuitId })

/-! Concrete fixtures used by scenario conjuncts and witnesses. -/

/-- A 160-bit all-zero node id. -/
def selfZ : List Nat := List.replicate 20 0

/-- A 160-bit id whose most significant bit is set (hex `80 00 ... 00`). -/
def idA : List Nat := 128 :: List.replicate 19 0

/-- A 160-bit id with leading byte `90`. -/
def idB : List Nat := 144 :: List.replicate 19 0

/-- A 160-bit id with leading byte `a0`. -/
def idC : List Nat := 160 :: List.replicate 19 0

/-- A 160-bit id with leading byte `40` (bucket 1 relative to `selfZ`). -/
def idD : List Nat := 64 :: List.replicate 19 0

/-- A circuit hop fixture. -/
def hopW1 : Hop := { id := idA, publicKey := 11, address := "10.0.0.1:3001" }

/-- A circuit hop fixture. -/
def hopW2 : Hop := { id := idB, publicKey := 22, address := "10.0.0.2:3002" }

/-- An ephemeral-key map holding one fresh, never-used key. -/
def ephW : String → Option EphKey :=
  fun kid => if kid = "k1" then some { keyPairId := 7, created := 0, uses := 0 } else none

/-- An ephemeral-key map holding one key that has been used 100 times. -/
def ephW2 : String → Option EphKey :=
  fun kid => if kid = "k2" then some { keyPairId := 9, created := 0, uses := 100 } else none

/-- The ephemeral-key map produced by the 101st signing operation on
`ephW2`: the use counter is bumped past 100 and the key is then deleted. -/
def ephW2after : String → Option EphKey :=
  updateMap (updateMap ephW2 "k2" (some { keyPairId := 9, created := 0, uses := 101 })) "k2" none

/-- A 20-byte stand-in for the SHA-1 digest of the key `"alpha"`. -/
def hkW : List Nat := List.replicate 20 3

/-- The SHA-1 hash modelled as an opaque function fixed on this run's key. -/
def hashW : String → List Nat := fun _ => hkW

/-- A network where every UDP send succeeds. -/
def sendTrueW : String → Bool := fun _ => true

/-- A contact fixture holding address `10.0.0.1:3000`. -/
def contactA : Contact := { id := idA, address := "10.0.0.1:3000", lastSeen := 0 }

/-- A contact fixture holding address `10.0.0.2:3000`. -/
def contactD : Contact := { id := idD, address := "10.0.0.2:3000", lastSeen := 0 }

/-- A routing table holding the single contact `contactA`. -/
def tableA : Nat → List Contact := fun i => if i = 0 then [contactA] else []

/-- A routing table holding `contactA` (bucket 0) and `contactD` (bucket 1). -/
def tableW7 : Nat → List Contact :=
  fun i => if i = 0 then [contactA] else if i = 1 then [contactD] else []

/-- A remote node's storage holding a fresh value 42 under `hkW`. -/
def remoteStorage42 : List Nat → Option (StorageEntry Nat) :=
  fun kh => if kh = hkW then some { value := 42, timestamp := 0, ttl := 3600000 } else none

/-- A local storage holding a fresh value 42 under `hkW`. -/
def storage42 : List Nat → Option (StorageEntry Nat) :=
  fun kh => if kh = hkW then some { value := 42, timestamp := 0, ttl := 3600000 } else none

/-- The routing-table invariant: every bucket respects the size bound
`k`, holds pairwise-distinct NodeIDs, and contains only contacts whose
bucket index is the bucket they sit in. -/
def TableInv (k : Nat) (selfId : List Nat) (table : Nat → List Contact) : Prop :=
  ∀ i, (table i).length ≤ k
    ∧ (table i).Pairwise (fun a b => a.id ≠ b.id)
    ∧ ∀ c ∈ table i, getBucketIndex selfId c.id = i

/-! Helper lemmas about the onion engine. -/

/-- Peeling distributes over concatenation of key sequences. -/
theorem peelSequence_append (ks1 ks2 : List Nat) (p : Packet) :
    peelSequence p (ks1 ++ ks2) = (peelSequence p ks1).bind (fun q => peelSequence q ks2) := by
  induction ks1 generalizing p with
  | nil => simp [peelSequence]
  | cons key keys ih =>
    simp only [List.cons_append, peelSequence]
    cases decryptLayer p key with
    | none => simp
    | some q => simpa using ih q

/-- Peeling the first `j` layers of a wrapped packet leaves the packet
wrapped for the remaining hops. -/
theorem peelSequence_take_drop (m : String) (now : Nat) :
    ∀ (circuit : List Hop) (tags : List String) (j : Nat),
      peelSequence (createOnionPacket m now circuit tags) ((circuit.map Hop.publicKey).take j)
        = some (createOnionPacket m now (circuit.drop j) (tags.drop j)) := by
  intro circuit
  induction circuit with
  | nil => intro tags j; simp [peelSequence, createOnionPacket]
  | cons hop rest ih =>
    intro tags j
    cases j with
    | zero => simp [peelSequence]
    | succ j =>
      have hpeel : peelSequence (createOnionPacket m now (hop :: rest) tags)
          ((List.map Hop.publicKey (hop :: rest)).take (j + 1))
          = peelSequence (createOnionPacket m now rest (tags.drop 1))
              ((rest.map Hop.publicKey).take j) := by
        simp [peelSequence, createOnionPacket, encryptLayer, decryptLayer]
      rw [hpeel, ih (tags.drop 1) j]
      have hdrop : (tags.drop 1).drop j = tags.drop (j + 1) := by
        rw [List.drop_drop, Nat.add_comm]
      rw [hdrop, List.drop_succ_cons]

/-! Claim theorems: onion engine and overlay dispatch. -/

/-- C3: for every payload and non-empty circuit, peeling the wrapped
packet successively with the hops' keys in circuit order yields the
terminal `payload`/`timestamp` record exactly at the last hop (every
proper prefix of the peel sequence leaves an encrypted layer, never a
terminal record), and applying any key that does not match the current
layer fails the decryption (`PeelFailed`). -/
theorem onion_wrap_peel_roundtrip (m : String) (now : Nat) (circuit : List Hop)
    (tags : List String) (hne : circuit ≠ []) :
    peelSequence (createOnionPacket m now circuit tags) (circuit.map Hop.publicKey)
      = some (.terminal m now)
    ∧ (∀ j < circuit.length, ∀ payload ts,
        peelSequence (createOnionPacket m now circuit tags)
          ((circuit.map Hop.publicKey).take j) ≠ some (.terminal payload ts))
    ∧ (∀ j hop rest, circuit.drop j = hop :: rest → ∀ key, key ≠ hop.publicKey →
        peelSequence (createOnionPacket m now circuit tags)
          ((circuit.map Hop.publicKey).take j ++ [key]) = none) := by
  have _ := hne
  refine ⟨?_, ?_, ?_⟩
  · have h := peelSequence_take_drop m now circuit tags circuit.length
    rw [List.take_of_length_le (by simp), List.drop_length] at h
    simpa [createOnionPacket] using h
  · intro j hj payload ts
    rw [peelSequence_take_drop m now circuit tags j]
    have hcons : circuit.drop j = circuit[j] :: circuit.drop (j + 1) :=
      List.drop_eq_getElem_cons hj
    rw [hcons]
    simp [createOnionPacket, encryptLayer]
  · intro j hop rest hdrop key hkey
    have hkey' : hop.publicKey ≠ key := Ne.symm hkey
    rw [peelSequence_append, peelSequence_take_drop m now circuit tags j, hdrop]
    simp [peelSequence, createOnionPacket, encryptLayer, decryptLayer, hkey']

/-- Witness for C3 at a concrete two-hop circuit. -/
theorem onion_wrap_peel_roundtrip_witness :
    peelSequence (createOnionPacket "hello" 5 [hopW1, hopW2] ["t1", "t2"])
      ([hopW1, hopW2].map Hop.publicKey) = some (.terminal "hello" 5) :=
  (onion_wrap_peel_roundtrip "hello" 5 [hopW1, hopW2] ["t1", "t2"] (by simp)).1

/-- C10: wrapping a message over the empty circuit applies zero encryption
layers; the resulting packet is the plaintext terminal record itself. -/
theorem createOnionPacket_empty_circuit (m : String) (now : Nat) (tags : List String) :
    createOnionPacket m now [] tags = .terminal m now := rfl

/-- C1: when an inbound onion packet decrypts under the node's private
key, a decrypted record carrying a `nextHop` field is forwarded (as an
opened stream send) to that endpoint, and a record without one is the
terminal delivery whose payload is emitted as the anonymous-message
event. -/
theorem processOnionPacket_dispatch (priv : Nat) (p d : Packet)
    (h : decryptLayer p priv = some d) :
    (∀ keyId inner nextHop, d = .layer keyId inner nextHop →
        processOnionPacket priv p = .forward (.layer keyId inner nextHop) nextHop)
    ∧ (∀ payload ts, d = .terminal payload ts →
        processOnionPacket priv p = .deliver payload) := by
  constructor
  · intro keyId inner nextHop hd
    subst hd
    simp [processOnionPacket, h, forwardOnionPacket]
  · intro payload ts hd
    subst hd
    simp [processOnionPacket, h]

/-- Witness for C1 at a concrete packet whose decryption is terminal. -/
theorem processOnionPacket_dispatch_witness :
    processOnionPacket 11 (.layer 11 (.terminal "hi" 3) "aa") = .deliver "hi" :=
  (processOnionPacket_dispatch 11 (.layer 11 (.terminal "hi" 3) "aa") (.terminal "hi" 3)
    (by simp [decryptLayer])).2 "hi" 3 rfl

/-- C9: the wire output of `sendAnonymousMessage` is identical for any two
target pseudonyms under the same state and random choices; the
`targetPseudonym` argument is never read. -/
theorem sendAnonymousMessage_ignores_pseudonym (table : Nat → List Contact)
    (resolver : List Nat → Option (Nat × String)) (m p1 p2 : String)
    (randomKeys : List (List Nat)) (circuitId : String) (tags : List String) (now : Nat) :
    sendAnonymousMessage table resolver m p1 randomKeys circuitId tags now
      = sendAnonymousMessage table resolver m p2 randomKeys circuitId tags now := rfl

/-! Claim theorems: ephemeral keys. -/

/-- C4 counterexample: a signing operation on a key created at time 0 is
accepted at time 4000000 even though 4000000 − 0 exceeds the 3600000 ms
bound, because the source only expires a key lazily inside the signing
call and still signs with it. -/
theorem ephemeral_usable_bound_counterexample :
    ephW "k1" = some { keyPairId := 7, created := 0, uses := 0 }
    ∧ (signWithEphemeral ephW "msg" "k1" 4000000).isSome = true
    ∧ 4000000 - 0 > 3600000 := by
  refine ⟨rfl, rfl, by norm_num⟩

/-- C4 (amended): a signing operation is accepted whenever the handle is
present, even on a stale key; but any signing operation whose
post-increment state violates `uses ≤ 100 ∧ now − created ≤ 3600000`
destroys the key, so a key still present after an accepted signing
operation at time `now` satisfies both bounds. -/
theorem ephemeral_destroyed_on_violation (ephemeralKeys : String → Option EphKey)
    (message keyId : String) (now : Nat) (st' : String → Option EphKey) (s : SigValue)
    (h : signWithEphemeral ephemeralKeys message keyId now = some (st', s)) :
    (∀ e', st' keyId = some e' → e'.uses ≤ 100 ∧ now - e'.created ≤ 3600000)
    ∧ (∀ e, ephemeralKeys keyId = some e →
        (e.uses + 1 > 100 ∨ now - e.created > 3600000) → st' keyId = none) := by
  cases heph : ephemeralKeys keyId with
  | none => simp [signWithEphemeral, heph] at h
  | some eph =>
    simp only [signWithEphemeral, heph] at h
    have h' := Option.some.inj h
    obtain ⟨hst, -⟩ := Prod.mk.inj h'
    by_cases hcond : eph.uses + 1 > 100 ∨ now - eph.created > 3600000
    · rw [if_pos hcond] at hst
      constructor
      · intro e' he'
        rw [← hst] at he'
        simp [updateMap] at he'
      · intro e _ _
        rw [← hst]
        simp [updateMap]
    · rw [if_neg hcond] at hst
      push_neg at hcond
      constructor
      · intro e' he'
        rw [← hst] at he'
        simp only [updateMap, eq_self_iff_true, if_true, Option.some.injEq] at he'
        subst he'
        exact ⟨hcond.1, hcond.2⟩
      · intro e he hviol
        obtain rfl := Option.some.inj he
        rcases hviol with h1 | h2 <;> omega

/-- Witness for C4's amended theorem: the 101st signing operation deletes
the key. -/
theorem ephemeral_destroyed_on_violation_witness :
    ephW2after "k2" = none :=
  (ephemeral_destroyed_on_violation ephW2 "m" "k2" 5 ephW2after
      { message := "m", keyPairId := 9 } rfl).2
    { keyPairId := 9, created := 0, uses := 100 } rfl (by norm_num)

/-! Claim theorems: routing-table LRU behaviour. -/

/-- The splice/unshift/pop step of `addNode` equals truncation to `k`
entries, provided the bucket respected its size bound beforehand. -/
theorem bucketTrim_eq_take (k : Nat) (e : Contact) (b : List Contact)
    (h : b.length ≤ k) (p : Contact → Bool) :
    (if (e :: b.eraseP p).length > k then (e :: b.eraseP p).dropLast else e :: b.eraseP p)
      = (e :: b.eraseP p).take k := by
  have hle : (b.eraseP p).length ≤ b.length := (List.eraseP_sublist b).length_le
  have hlen1 : (e :: b.eraseP p).length = (b.eraseP p).length + 1 := by simp
  by_cases hgt : (e :: b.eraseP p).length > k
  · rw [if_pos hgt, List.dropLast_eq_take]
    have hk : (e :: b.eraseP p).length - 1 = k := by omega
    rw [hk]
  · rw [if_neg hgt]
    exact (List.take_of_length_le (Nat.le_of_not_lt hgt)).symm

/-- C5: `observe(id, endpoint)` removes a pre-existing entry with the same
id, pushes the fresh contact to the front, and truncates the bucket to
`k` entries by dropping the tail; other buckets are untouched.  In
particular observing `A, B, C, A` into one bucket yields order
`[A, C, B]`, and with `k = 2` observing `A, B, C` evicts `A` leaving
`[C, B]`. -/
theorem observe_lru_behavior (k : Nat) (selfId nodeId : List Nat) (address : String)
    (now : Nat) (table : Nat → List Contact)
    (hlen : (table (getBucketIndex selfId nodeId)).length ≤ k) :
    (addNode k selfId table nodeId address now (getBucketIndex selfId nodeId)
      = (({ id := nodeId, address := address, lastSeen := now } : Contact)
          :: (table (getBucketIndex selfId nodeId)).eraseP
              (fun node => node.id == nodeId)).take k)
    ∧ (∀ j, j ≠ getBucketIndex selfId nodeId →
        addNode k selfId table nodeId address now j = table j)
    ∧ ((runObservations 20 selfZ
          [⟨idA, "a", 1⟩, ⟨idB, "b", 2⟩, ⟨idC, "c", 3⟩, ⟨idA, "a", 4⟩] 0).map Contact.id
        = [idA, idC, idB])
    ∧ ((runObservations 2 selfZ [⟨idA, "a", 1⟩, ⟨idB, "b", 2⟩, ⟨idC, "c", 3⟩] 0).map Contact.id
        = [idC, idB]) := by
  refine ⟨?_, ?_, by decide, by decide⟩
  · simp only [addNode, eq_self_iff_true, if_true]
    exact bucketTrim_eq_take k _ _ hlen _
  · intro j hj
    simp only [addNode]
    rw [if_neg hj]

/-- Witness for C5: the k = 2 eviction scenario, through the theorem at a
concrete observation. -/
theorem observe_lru_behavior_witness :
    (runObservations 2 selfZ [⟨idA, "a", 1⟩, ⟨idB, "b", 2⟩, ⟨idC, "c", 3⟩] 0).map Contact.id
      = [idC, idB] :=
  (observe_lru_behavior 20 selfZ idA "a" 1 emptyTable (by decide)).2.2.2

/-! Claim theorems: DHT storage reads. -/

/-- The network phase of `retrieve` can never produce a value: every
`sendFindValue` promise settles as rejected or as fulfilled with no
value. -/
theorem firstFulfilledValue_map_sendFindValue {α : Type} (sendOk : String → Bool)
    (addrs : List String) :
    firstFulfilledValue ((addrs.map (sendFindValue sendOk)) : List (Settled α)) = none := by
  induction addrs with
  | nil => rfl
  | cons a rest ih =>
    by_cases h : sendOk a = true
    · simp [sendFindValue, h, firstFulfilledValue, ih]
    · simp [sendFindValue, h, firstFulfilledValue, ih]

/-- A fresh local entry is served directly with no UDP traffic. -/
theorem retrieve_hit {α : Type} (hash : String → List Nat) (sendOk : String → Bool)
    (storage : List Nat → Option (StorageEntry α)) (table : Nat → List Contact)
    (alpha k : Nat) (key : String) (now : Nat) (e : StorageEntry α)
    (hs : storage (hash key) = some e) (hf : now - e.timestamp < e.ttl) :
    retrieve hash sendOk storage table alpha k key now
      = { value := some e.value, udp := [] } := by
  simp only [retrieve, hs, if_pos hf]

/-- Without a fresh local entry, `retrieve` fans out to the closest
`alpha` contacts and, by `firstFulfilledValue_map_sendFindValue`, comes
back with no value. -/
theorem retrieve_miss {α : Type} (hash : String → List Nat) (sendOk : String → Bool)
    (storage : List Nat → Option (StorageEntry α)) (table : Nat → List Contact)
    (alpha k : Nat) (key : String) (now : Nat)
    (hmiss : ∀ e, storage (hash key) = some e → ¬now - e.timestamp < e.ttl) :
    retrieve hash sendOk storage table alpha k key now
      = { value := none,
          udp := ((findClosestNodes table (hash key) k).take alpha).map
              (fun node => node.1.address) } := by
  cases hs : storage (hash key) with
  | none =>
    simp only [retrieve, hs]
    rw [firstFulfilledValue_map_sendFindValue]
  | some e =>
    have hf := hmiss e hs
    simp only [retrieve, hs, if_neg hf]
    rw [firstFulfilledValue_map_sendFindValue]

/-- C8: a storage entry is observable to reads iff `now − insertion < ttl`:
a local `retrieve` returns the stored value with no UDP traffic exactly
when a fresh local entry exists, and the `FIND_VALUE` handler answers
`FOUND` exactly for fresh entries and `NODES` otherwise. -/
theorem storage_ttl_observability {α : Type} (hash : String → List Nat)
    (sendOk : String → Bool) (storage : List Nat → Option (StorageEntry α))
    (table : Nat → List Contact) (alpha k : Nat) (key : String) (now : Nat)
    (selfId senderId : List Nat) (senderAddress : String) (v : α) :
    (((retrieve hash sendOk storage table alpha k key now).value = some v
        ∧ (retrieve hash sendOk storage table alpha k key now).udp = [])
      ↔ ∃ e, storage (hash key) = some e ∧ now - e.timestamp < e.ttl ∧ e.value = v)
    ∧ ((handleFindValue selfId k storage table senderId senderAddress (hash key) now).1
          = FindValueResponse.found v
        ↔ ∃ e, storage (hash key) = some e ∧ now - e.timestamp < e.ttl ∧ e.value = v)
    ∧ ((¬∃ e, storage (hash key) = some e ∧ now - e.timestamp < e.ttl) →
        (handleFindValue selfId k storage table senderId senderAddress (hash key) now).1
          = FindValueResponse.nodes (findClosestNodes
              (addNode k selfId table senderId senderAddress now) (hash key) k)) := by
  cases hs : storage (hash key) with
  | none =>
    have hr := retrieve_miss (α := α) hash sendOk storage table alpha k key now
      (fun e he => by rw [hs] at he; exact Option.noConfusion he)
    refine ⟨?_, ?_, ?_⟩
    · rw [hr]
      simp
    · simp [handleFindValue, hs]
    · intro _
      simp [handleFindValue, hs]
  | some e =>
    by_cases hf : now - e.timestamp < e.ttl
    · have hr := retrieve_hit hash sendOk storage table alpha k key now e hs hf
      refine ⟨?_, ?_, ?_⟩
      · rw [hr]
        simp [hf]
      · simp [handleFindValue, hs, hf]
      · intro hcon
        exact absurd ⟨e, rfl, hf⟩ hcon
    · have hr := retrieve_miss hash sendOk storage table alpha k key now
        (fun e' he' => by
          rw [hs, Option.some.injEq] at he'
          rw [← he']
          exact hf)
      refine ⟨?_, ?_, ?_⟩
      · rw [hr]
        simp [hf]
      · simp [handleFindValue, hs, hf]
      · intro _
        simp [handleFindValue, hs, hf]

/-- Witness for C8: scenario 4, a fresh local entry is served with no UDP
traffic. -/
theorem storage_ttl_observability_witness :
    (retrieve hashW sendTrueW storage42 emptyTable 3 20 "alpha" 100).value = some 42
    ∧ (retrieve hashW sendTrueW storage42 emptyTable 3 20 "alpha" 100).udp = [] :=
  ((storage_ttl_observability hashW sendTrueW storage42 emptyTable 3 20 "alpha" 100
      selfZ idA "9.9.9.9:3000" 42).1).mpr
    ⟨{ value := 42, timestamp := 0, ttl := 3600000 }, by decide, by decide, rfl⟩

/-- C2 (code bug): with no fresh local entry, `retrieve` issues the
`FIND_VALUE` queries but returns `null` even though the queried node
would answer `FOUND 42`, because `sendFindValue` resolves on UDP send
success with no value and never reads the response. -/
theorem retrieve_ignores_found_responses :
    (retrieve hashW sendTrueW (fun _ => (none : Option (StorageEntry Nat))) tableA 3 20
        "alpha" 100).value = none
    ∧ (retrieve hashW sendTrueW (fun _ => (none : Option (StorageEntry Nat))) tableA 3 20
        "alpha" 100).udp = ["10.0.0.1:3000"]
    ∧ (handleFindValue selfZ 20 remoteStorage42 emptyTable idA "9.9.9.9:3000" hkW 100).1
        = FindValueResponse.found 42 := by
  refine ⟨by decide, by decide, by decide⟩

/-! Claim theorems: routing-table invariants. -/

/-- The inner bit scan only ever reports positions below 8. -/
theorem findBitInByte_lt_eight (byte j : Nat) (h : findBitInByte byte = some j) : j < 8 := by
  have hm := List.mem_of_find?_eq_some h
  simpa using hm

/-- A byte in which the scan finds no set bit is zero. -/
theorem findBitInByte_none_eq_zero (byte : Nat) (hb : byte < 256)
    (h : findBitInByte byte = none) : byte = 0 := by
  have hd : ∀ x < 256, findBitInByte x = none → x = 0 := by decide
  exact hd byte hb h

/-- The reported position is the most significant set bit of the byte
(bit 0 being the most significant, as in the source's bit order). -/
theorem findBitInByte_spec (byte : Nat) (hb : byte < 256) (j : Nat) (hj : j < 8)
    (h : findBitInByte byte = some j) :
    byte.testBit (7 - j) = true ∧ ∀ b < j, byte.testBit (7 - b) = false := by
  have hd : ∀ x < 256, ∀ i < 8, findBitInByte x = some i →
      x.testBit (7 - i) = true ∧ ∀ b < i, x.testBit (7 - b) = false := by decide
  exact hd byte hb j hj h

/-- The empty byte sequence has no set bits. -/
theorem bitAt_nil (b : Nat) : bitAt [] b = false := by
  unfold bitAt
  simp

/-- Bit access below 8 reads the head byte. -/
theorem bitAt_cons_lt (x : Nat) (rest : List Nat) (b : Nat) (hb : b < 8) :
    bitAt (x :: rest) b = x.testBit (7 - b) := by
  unfold bitAt
  rw [Nat.div_eq_of_lt hb, Nat.mod_eq_of_lt hb]
  rfl

/-- Bit access beyond 8 reads the tail. -/
theorem bitAt_cons_add (x : Nat) (rest : List Nat) (b : Nat) :
    bitAt (x :: rest) (b + 8) = bitAt rest b := by
  unfold bitAt
  rw [Nat.add_div_right b (by norm_num), Nat.add_mod_right]
  rfl

/-- The bucket scan of a distance buffer either reports 159 on an
all-zero buffer or the position of the most significant set bit, offset
by the byte position it started at. -/
theorem bucketScan_spec (d : List Nat) :
    ∀ off : Nat, (∀ x ∈ d, x < 256) →
      ((∀ b, bitAt d b = false) ∧ bucketScan d off = 159)
      ∨ (∃ j, bucketScan d off = off * 8 + j ∧ bitAt d j = true
          ∧ ∀ b < j, bitAt d b = false) := by
  induction d with
  | nil => exact fun off _ => Or.inl ⟨fun b => bitAt_nil b, rfl⟩
  | cons byte rest ih =>
    intro off hd
    have hbyte : byte < 256 := hd byte (List.mem_cons_self _ _)
    have hrest : ∀ x ∈ rest, x < 256 := fun x hx => hd x (List.mem_cons_of_mem _ hx)
    cases hfind : findBitInByte byte with
    | some j =>
      have hj8 : j < 8 := findBitInByte_lt_eight byte j hfind
      obtain ⟨hset, hmin⟩ := findBitInByte_spec byte hbyte j hj8 hfind
      refine Or.inr ⟨j, ?_, ?_, ?_⟩
      · simp [bucketScan, hfind]
      · rw [bitAt_cons_lt byte rest j hj8]
        exact hset
      · intro b hb
        rw [bitAt_cons_lt byte rest b (lt_trans hb hj8)]
        exact hmin b hb
    | none =>
      have hzero : byte = 0 := findBitInByte_none_eq_zero byte hbyte hfind
      have hscan : bucketScan (byte :: rest) off = bucketScan rest (off + 1) := by
        simp [bucketScan, hfind]
      rcases ih (off + 1) hrest with ⟨hall, hrec⟩ | ⟨j, hrec, hset, hmin⟩
      · refine Or.inl ⟨?_, by rw [hscan]; exact hrec⟩
        intro b
        by_cases hb : b < 8
        · rw [bitAt_cons_lt byte rest b hb, hzero]
          exact Nat.zero_testBit _
        · have hb8 : b = (b - 8) + 8 := by omega
          rw [hb8, bitAt_cons_add]
          exact hall (b - 8)
      · refine Or.inr ⟨j + 8, ?_, ?_, ?_⟩
        · rw [hscan, hrec]
          omega
        · rw [bitAt_cons_add]
          exact hset
        · intro b hb
          by_cases hb8 : b < 8
          · rw [bitAt_cons_lt byte rest b hb8, hzero]
            exact Nat.zero_testBit _
          · have hbe : b = (b - 8) + 8 := by omega
            rw [hbe, bitAt_cons_add]
            exact hmin (b - 8) (by omega)

/-- XOR distances of byte sequences stay bytes. -/
theorem xorDistance_bytes_lt (a b : List Nat) (ha : ∀ x ∈ a, x < 256)
    (hb : ∀ x ∈ b, x < 256) : ∀ x ∈ xorDistance a b, x < 256 := by
  intro x hx
  unfold xorDistance at hx
  rcases List.mem_map.mp hx with ⟨i, hi, rfl⟩
  have h1 : a.getD i 0 < 256 := by
    by_cases hia : i < a.length
    · rw [List.getD_eq_getElem a 0 hia]
      exact ha _ (List.getElem_mem hia)
    · rw [List.getD_eq_default a 0 (Nat.le_of_not_lt hia)]
      norm_num
  have h2 : b.getD i 0 < 256 := by
    by_cases hib : i < b.length
    · rw [List.getD_eq_getElem b 0 hib]
      exact hb _ (List.getElem_mem hib)
    · rw [List.getD_eq_default b 0 (Nat.le_of_not_lt hib)]
      norm_num
  have h256 : (256 : Nat) = 2 ^ 8 := by norm_num
  rw [h256] at h1 h2 ⊢
  exact Nat.xor_lt_two_pow h1 h2

/-- Anything in an updated bucket is the fresh contact or was already in
the table at the same index. -/
theorem addNode_mem (k : Nat) (selfId : List Nat) (table : Nat → List Contact)
    (nodeId : List Nat) (address : String) (now : Nat) (i : Nat) (c : Contact)
    (hc : c ∈ addNode k selfId table nodeId address now i) :
    c = { id := nodeId, address := address, lastSeen := now } ∨ c ∈ table i := by
  simp only [addNode] at hc
  by_cases hi : i = getBucketIndex selfId nodeId
  · rw [if_pos hi] at hc
    have hc2 : c ∈ ({ id := nodeId, address := address, lastSeen := now } : Contact)
        :: (table (getBucketIndex selfId nodeId)).eraseP (fun node => node.id == nodeId) := by
      rcases Decidable.em ((({ id := nodeId, address := address, lastSeen := now } : Contact)
          :: (table (getBucketIndex selfId nodeId)).eraseP
            (fun node => node.id == nodeId)).length > k) with hgt | hgt
      · rw [if_pos hgt] at hc
        exact (List.dropLast_sublist _).subset hc
      · rw [if_neg hgt] at hc
        exact hc
    rcases List.mem_cons.mp hc2 with h | h
    · exact Or.inl h
    · right
      rw [hi]
      exact (List.eraseP_sublist _).subset h
  · rw [if_neg hi] at hc
    exact Or.inr hc

/-- Removing the entry matching an id leaves no entry with that id in a
duplicate-free bucket. -/
theorem eraseP_preserves_ne (nodeId : List Nat) (b : List Contact)
    (hp : b.Pairwise (fun a c => a.id ≠ c.id)) :
    ∀ c ∈ b.eraseP (fun node => node.id == nodeId), c.id ≠ nodeId := by
  induction b with
  | nil => simp
  | cons x rest ih =>
    rcases List.pairwise_cons.mp hp with ⟨hx, hrest⟩
    by_cases hxid : x.id = nodeId
    · rw [List.eraseP_cons_of_pos (by simp [hxid])]
      intro c hc
      rw [← hxid]
      exact fun h => (hx c hc) h.symm
    · rw [List.eraseP_cons_of_neg (by simp [hxid])]
      intro c hc
      rcases List.mem_cons.mp hc with rfl | hc2
      · exact hxid
      · exact ih hrest c hc2

/-- One `observe` step preserves the routing-table invariant. -/
theorem addNode_preserves_inv (k : Nat) (selfId : List Nat) (table : Nat → List Contact)
    (nodeId : List Nat) (address : String) (now : Nat) (h : TableInv k selfId table) :
    TableInv k selfId (addNode k selfId table nodeId address now) := by
  intro i
  by_cases hi : i = getBucketIndex selfId nodeId
  · subst hi
    obtain ⟨hlen, hpair, hmem⟩ := h (getBucketIndex selfId nodeId)
    have heq : addNode k selfId table nodeId address now (getBucketIndex selfId nodeId)
        = (({ id := nodeId, address := address, lastSeen := now } : Contact)
            :: (table (getBucketIndex selfId nodeId)).eraseP
              (fun node => node.id == nodeId)).take k := by
      simp only [addNode, eq_self_iff_true, if_true]
      exact bucketTrim_eq_take k _ _ hlen _
    rw [heq]
    have hpairE : ((table (getBucketIndex selfId nodeId)).eraseP
        (fun node => node.id == nodeId)).Pairwise (fun a b => a.id ≠ b.id) :=
      List.Pairwise.sublist (List.eraseP_sublist _) hpair
    have hne : ∀ c ∈ (table (getBucketIndex selfId nodeId)).eraseP
        (fun node => node.id == nodeId),
        ({ id := nodeId, address := address, lastSeen := now } : Contact).id ≠ c.id :=
      fun c hc => Ne.symm (eraseP_preserves_ne nodeId _ hpair c hc)
    have hpairCons := List.pairwise_cons.mpr ⟨hne, hpairE⟩
    refine ⟨List.length_take_le _ _, ?_, ?_⟩
    · exact List.Pairwise.sublist (List.take_sublist _ _) hpairCons
    · intro c hc
      have hc2 := (List.take_sublist _ _).subset hc
      rcases List.mem_cons.mp hc2 with rfl | hc3
      · rfl
      · exact (h (getBucketIndex selfId nodeId)).2.2 c ((List.eraseP_sublist _).subset hc3)
  · have heq : addNode k selfId table nodeId address now i = table i := by
      simp only [addNode]
      rw [if_neg hi]
    rw [heq]
    exact h i

/-- The invariant holds after any sequence of observations. -/
theorem runObservations_inv (k : Nat) (selfId : List Nat) (ops : List Observation) :
    TableInv k selfId (runObservations k selfId ops) := by
  suffices h : ∀ t, TableInv k selfId t →
      TableInv k selfId (ops.foldl (fun t o => addNode k selfId t o.nodeId o.address o.time) t) by
    refine h emptyTable ?_
    intro i
    exact ⟨by simp [emptyTable], by simp [emptyTable], by simp [emptyTable]⟩
  induction ops with
  | nil => exact fun t ht => ht
  | cons o os ih =>
    intro t ht
    exact ih _ (addNode_preserves_inv k selfId t o.nodeId o.address o.time ht)

/-- Every contact id in a table built by observations came from some
observation, so its bytes are bytes. -/
theorem foldl_id_bytes (k : Nat) (selfId : List Nat) :
    ∀ (ops : List Observation) (t : Nat → List Contact),
      (∀ o ∈ ops, ∀ x ∈ o.nodeId, x < 256) →
      (∀ i, ∀ c ∈ t i, ∀ x ∈ c.id, x < 256) →
      ∀ i, ∀ c ∈ (ops.foldl (fun t o => addNode k selfId t o.nodeId o.address o.time) t) i,
        ∀ x ∈ c.id, x < 256 := by
  intro ops
  induction ops with
  | nil => exact fun t _ ht => ht
  | cons o os ih =>
    intro t hops ht
    refine ih _ (fun o2 h2 => hops o2 (List.mem_cons_of_mem _ h2)) ?_
    intro i c hc
    rcases addNode_mem k selfId t o.nodeId o.address o.time i c hc with rfl | hmem
    · exact hops o (List.mem_cons_self _ _)
    · exact ht i c hmem

/-- Specialisation of `foldl_id_bytes` to a run from the empty table. -/
theorem runObservations_id_bytes (k : Nat) (selfId : List Nat) (ops : List Observation)
    (hops : ∀ o ∈ ops, ∀ x ∈ o.nodeId, x < 256) :
    ∀ i, ∀ c ∈ runObservations k selfId ops i, ∀ x ∈ c.id, x < 256 :=
  foldl_id_bytes k selfId ops emptyTable hops (by intro i c hc; simp [emptyTable] at hc)

/-- C6: after every sequence of observations, every bucket holds at most
`k` contacts with pairwise-distinct NodeIDs, and every contact in bucket
`i` has the most significant differing bit of `XOR(self, id)` at exactly
position `i` — except in bucket 159, which also receives the zero
distance. -/
theorem routing_table_invariants (k : Nat) (selfId : List Nat)
    (hself : ∀ x ∈ selfId, x < 256) (ops : List Observation)
    (hops : ∀ o ∈ ops, ∀ x ∈ o.nodeId, x < 256) (i : Nat) :
    ((runObservations k selfId ops) i).length ≤ k
    ∧ ((runObservations k selfId ops) i).Pairwise (fun a b => a.id ≠ b.id)
    ∧ (∀ c ∈ (runObservations k selfId ops) i,
        (bitAt (xorDistance selfId c.id) i = true
          ∧ ∀ b < i, bitAt (xorDistance selfId c.id) b = false)
        ∨ (i = 159 ∧ ∀ b, bitAt (xorDistance selfId c.id) b = false)) := by
  obtain ⟨hlen, hpair, hmem⟩ := runObservations_inv k selfId ops i
  refine ⟨hlen, hpair, ?_⟩
  intro c hc
  have hidx : getBucketIndex selfId c.id = i := hmem c hc
  have hid : ∀ x ∈ c.id, x < 256 := runObservations_id_bytes k selfId ops hops i c hc
  have hdist : ∀ x ∈ xorDistance selfId c.id, x < 256 :=
    xorDistance_bytes_lt selfId c.id hself hid
  rcases bucketScan_spec (xorDistance selfId c.id) 0 hdist with ⟨hall, hscan⟩ |
    ⟨j, hscan, hset, hmin⟩
  · right
    refine ⟨?_, hall⟩
    rw [← hidx]
    exact hscan
  · left
    have hji : j = i := by
      have hgb : getBucketIndex selfId c.id = 0 * 8 + j := hscan
      omega
    subst hji
    exact ⟨hset, hmin⟩

/-- Witness for C6 after one concrete observation. -/
theorem routing_table_invariants_witness :
    ((runObservations 20 selfZ [⟨idA, "a", 1⟩]) 0).length ≤ 20 :=
  (routing_table_invariants 20 selfZ (by decide) [⟨idA, "a", 1⟩] (by decide) 0).1

/-! Claim theorems: closest-node lookup versus its specification. -/

/-- Folding the base-256 accumulation from an arbitrary accumulator. -/
theorem bytesToNat_foldl_acc : ∀ (l : List Nat) (acc : Nat),
    l.foldl (fun a b => a * 256 + b) acc = acc * 256 ^ l.length + bytesToNat l := by
  intro l
  induction l with
  | nil => intro acc; simp [bytesToNat]
  | cons b bs ih =>
    intro acc
    have h1 : (b :: bs).foldl (fun a c => a * 256 + c) acc
        = bs.foldl (fun a c => a * 256 + c) (acc * 256 + b) := rfl
    have h2 : bytesToNat (b :: bs) = bs.foldl (fun a c => a * 256 + c) (0 * 256 + b) := rfl
    rw [h1, ih (acc * 256 + b), h2, ih (0 * 256 + b)]
    simp only [List.length_cons]
    ring

/-- Peeling one byte off a big-endian value. -/
theorem bytesToNat_cons (x : Nat) (xs : List Nat) :
    bytesToNat (x :: xs) = x * 256 ^ xs.length + bytesToNat xs := by
  have h : bytesToNat (x :: xs) = xs.foldl (fun a c => a * 256 + c) (0 * 256 + x) := rfl
  rw [h, bytesToNat_foldl_acc]
  ring

/-- A byte sequence's value is bounded by its width. -/
theorem bytesToNat_lt_pow (l : List Nat) (h : ∀ x ∈ l, x < 256) :
    bytesToNat l < 256 ^ l.length := by
  induction l with
  | nil => simp [bytesToNat]
  | cons x xs ih =>
    have hx : x < 256 := h x (List.mem_cons_self _ _)
    have hxs := ih (fun y hy => h y (List.mem_cons_of_mem _ hy))
    rw [bytesToNat_cons]
    calc x * 256 ^ xs.length + bytesToNat xs
        < x * 256 ^ xs.length + 256 ^ xs.length := Nat.add_lt_add_left hxs _
      _ = (x + 1) * 256 ^ xs.length := by ring
      _ ≤ 256 * 256 ^ xs.length := Nat.mul_le_mul_right _ hx
      _ = 256 ^ (x :: xs).length := by rw [List.length_cons, pow_succ]; ring

/-- Lexicographic comparison is reflexive. -/
theorem lexLE_refl (a : List Nat) : lexLE a a = true := by
  induction a with
  | nil => rfl
  | cons x xs ih => simp [lexLE, ih]

/-- On equal-width byte sequences, lexicographic comparison is exactly
comparison of the big-endian unsigned integer values. -/
theorem lexLE_iff_le : ∀ (a b : List Nat), a.length = b.length →
    (∀ x ∈ a, x < 256) → (∀ x ∈ b, x < 256) →
    (lexLE a b = true ↔ bytesToNat a ≤ bytesToNat b) := by
  intro a
  induction a with
  | nil =>
    intro b hlen _ _
    have hb : b = [] := List.eq_nil_of_length_eq_zero hlen.symm
    subst hb
    simp [lexLE]
  | cons x xs ih =>
    intro b hlen ha hb
    cases b with
    | nil => simp at hlen
    | cons y ys =>
      have hlen' : xs.length = ys.length := by simpa using hlen
      have hxs : ∀ t ∈ xs, t < 256 := fun t ht => ha t (List.mem_cons_of_mem _ ht)
      have hys : ∀ t ∈ ys, t < 256 := fun t ht => hb t (List.mem_cons_of_mem _ ht)
      rw [bytesToNat_cons, bytesToNat_cons, hlen']
      rcases lt_trichotomy x y with hlt | heq | hgt
      · have hL : lexLE (x :: xs) (y :: ys) = true := by simp [lexLE, hlt]
        rw [hL]
        simp only [true_iff]
        have hBx : bytesToNat xs < 256 ^ ys.length := by
          rw [← hlen']
          exact bytesToNat_lt_pow xs hxs
        exact le_of_lt (calc x * 256 ^ ys.length + bytesToNat xs
              < x * 256 ^ ys.length + 256 ^ ys.length := Nat.add_lt_add_left hBx _
            _ = (x + 1) * 256 ^ ys.length := by ring
            _ ≤ y * 256 ^ ys.length := Nat.mul_le_mul_right _ hlt
            _ ≤ y * 256 ^ ys.length + bytesToNat ys := Nat.le_add_right _ _)
      · subst heq
        have hL : lexLE (x :: xs) (x :: ys) = lexLE xs ys := by simp [lexLE]
        rw [hL, ih ys hlen' hxs hys]
        exact (add_le_add_iff_left _).symm
      · have hL : lexLE (x :: xs) (y :: ys) = false := by
          have h1 : ¬x < y := by omega
          simp [lexLE, h1, hgt]
        rw [hL]
        simp only [Bool.false_eq_true, false_iff, not_le]
        have hBy : bytesToNat ys < 256 ^ ys.length := bytesToNat_lt_pow ys hys
        calc y * 256 ^ ys.length + bytesToNat ys
            < y * 256 ^ ys.length + 256 ^ ys.length := Nat.add_lt_add_left hBy _
          _ = (y + 1) * 256 ^ ys.length := by ring
          _ ≤ x * 256 ^ ys.length := Nat.mul_le_mul_right _ hgt
          _ ≤ x * 256 ^ ys.length + bytesToNat xs := Nat.le_add_right _ _

/-- The big-endian value determines the byte sequence at a fixed width. -/
theorem bytesToNat_inj : ∀ (a b : List Nat), a.length = b.length →
    (∀ x ∈ a, x < 256) → (∀ x ∈ b, x < 256) →
    bytesToNat a = bytesToNat b → a = b := by
  intro a
  induction a with
  | nil =>
    intro b hlen _ _ _
    exact (List.eq_nil_of_length_eq_zero hlen.symm).symm
  | cons x xs ih =>
    intro b hlen ha hb heq
    cases b with
    | nil => simp at hlen
    | cons y ys =>
      have hlen' : xs.length = ys.length := by simpa using hlen
      have hxs : ∀ t ∈ xs, t < 256 := fun t ht => ha t (List.mem_cons_of_mem _ ht)
      have hys : ∀ t ∈ ys, t < 256 := fun t ht => hb t (List.mem_cons_of_mem _ ht)
      rw [bytesToNat_cons, bytesToNat_cons, hlen'] at heq
      have hBx : bytesToNat xs < 256 ^ ys.length := by
        rw [← hlen']
        exact bytesToNat_lt_pow xs hxs
      have hBy : bytesToNat ys < 256 ^ ys.length := bytesToNat_lt_pow ys hys
      have hxy : x = y := by
        rcases lt_trichotomy x y with h1 | h1 | h1
        · exact absurd heq (Nat.ne_of_lt (calc x * 256 ^ ys.length + bytesToNat xs
                < x * 256 ^ ys.length + 256 ^ ys.length := Nat.add_lt_add_left hBx _
              _ = (x + 1) * 256 ^ ys.length := by ring
              _ ≤ y * 256 ^ ys.length := Nat.mul_le_mul_right _ h1
              _ ≤ y * 256 ^ ys.length + bytesToNat ys := Nat.le_add_right _ _))
        · exact h1
        · exact absurd heq.symm (Nat.ne_of_lt (calc y * 256 ^ ys.length + bytesToNat ys
                < y * 256 ^ ys.length + 256 ^ ys.length := Nat.add_lt_add_left hBy _
              _ = (y + 1) * 256 ^ ys.length := by ring
              _ ≤ x * 256 ^ ys.length := Nat.mul_le_mul_right _ h1
              _ ≤ x * 256 ^ ys.length + bytesToNat xs := Nat.le_add_right _ _))
      subst hxy
      have hB : bytesToNat xs = bytesToNat ys := Nat.add_left_cancel heq
      rw [ih ys hlen' hxs hys hB]

/-- XOR with a fixed target is injective on equal-length ids. -/
theorem xorDistance_inj (a b t : List Nat) (hlen : a.length = b.length)
    (h : xorDistance a t = xorDistance b t) : a = b := by
  apply List.ext_getElem hlen
  intro n h1 h2
  have hd := congrArg (fun l => l.getD n 0) h
  have e1 : (xorDistance a t).getD n 0 = a.getD n 0 ^^^ t.getD n 0 := by
    unfold xorDistance
    rw [List.getD_eq_getElem _ 0 (by simpa using h1)]
    simp
  have e2 : (xorDistance b t).getD n 0 = b.getD n 0 ^^^ t.getD n 0 := by
    unfold xorDistance
    rw [List.getD_eq_getElem _ 0 (by simpa using h2)]
    simp
  simp only [e1, e2] at hd
  have hcancel := congrArg (fun z => z ^^^ t.getD n 0) hd
  simp only [Nat.xor_assoc, Nat.xor_self, Nat.xor_zero] at hcancel
  rw [List.getD_eq_getElem _ 0 h1, List.getD_eq_getElem _ 0 h2] at hcancel
  exact hcancel

/-- Membership in an insertion step. -/
theorem mem_insertLe (le : α → α → Bool) (a x : α) (l : List α) :
    x ∈ insertLe le a l ↔ x = a ∨ x ∈ l := by
  induction l with
  | nil => simp [insertLe]
  | cons b rest ih =>
    by_cases h : le a b
    · simp [insertLe, if_pos h, List.mem_cons]
    · simp only [insertLe, if_neg h, List.mem_cons, ih]
      tauto

/-- Insertion grows the list by one. -/
theorem length_insertLe (le : α → α → Bool) (a : α) (l : List α) :
    (insertLe le a l).length = l.length + 1 := by
  induction l with
  | nil => rfl
  | cons b rest ih =>
    by_cases h : le a b <;> simp [insertLe, h, ih]

/-- Sorting preserves length. -/
theorem length_sortByLe (le : α → α → Bool) (l : List α) :
    (sortByLe le l).length = l.length := by
  induction l with
  | nil => rfl
  | cons a rest ih => simp [sortByLe, length_insertLe, ih]

/-- Sorting preserves membership. -/
theorem mem_sortByLe (le : α → α → Bool) (l : List α) (x : α) :
    x ∈ sortByLe le l ↔ x ∈ l := by
  induction l with
  | nil => simp [sortByLe]
  | cons a rest ih => simp [sortByLe, mem_insertLe, ih, List.mem_cons]

/-- Insertion only consults the comparator against list members. -/
theorem insertLe_congr (le1 le2 : α → α → Bool) (a : α) (l : List α)
    (h : ∀ y ∈ l, le1 a y = le2 a y) : insertLe le1 a l = insertLe le2 a l := by
  induction l with
  | nil => rfl
  | cons b rest ih =>
    have hb := h b (List.mem_cons_self _ _)
    have hrest := fun y hy => h y (List.mem_cons_of_mem _ hy)
    show (if le1 a b then a :: b :: rest else b :: insertLe le1 a rest)
      = (if le2 a b then a :: b :: rest else b :: insertLe le2 a rest)
    rw [hb]
    by_cases h2 : le2 a b
    · rw [if_pos h2, if_pos h2]
    · rw [if_neg h2, if_neg h2, ih hrest]

/-- Two comparators that agree on all pairs drawn from a list sort it
identically. -/
theorem sortByLe_congr (le1 le2 : α → α → Bool) (l : List α)
    (h : ∀ x ∈ l, ∀ y ∈ l, le1 x y = le2 x y) : sortByLe le1 l = sortByLe le2 l := by
  induction l with
  | nil => rfl
  | cons a rest ih =>
    have hrest : ∀ x ∈ rest, ∀ y ∈ rest, le1 x y = le2 x y :=
      fun x hx y hy => h x (List.mem_cons_of_mem _ hx) y (List.mem_cons_of_mem _ hy)
    have hins : ∀ y ∈ sortByLe le2 rest, le1 a y = le2 a y := by
      intro y hy
      have hy2 : y ∈ rest := (mem_sortByLe le2 rest y).mp hy
      exact h a (List.mem_cons_self _ _) y (List.mem_cons_of_mem _ hy2)
    calc sortByLe le1 (a :: rest) = insertLe le1 a (sortByLe le1 rest) := rfl
      _ = insertLe le1 a (sortByLe le2 rest) := by rw [ih hrest]
      _ = insertLe le2 a (sortByLe le2 rest) := insertLe_congr le1 le2 a _ hins
      _ = sortByLe le2 (a :: rest) := rfl

/-- C7: on a routing table with pairwise-distinct 160-bit ids,
`findClosestNodes` equals the specification: all contacts sorted
ascending by XOR distance read as a big-endian unsigned integer (ties, if
any, by endpoint string), truncated to `count`; `count = 0` yields the
empty list and `count` at least the contact total yields all contacts
fully sorted. -/
theorem findClosestNodes_matches_sorted_spec (table : Nat → List Contact)
    (target : List Nat) (count : Nat)
    (hlen : ∀ c ∈ allBuckets table, c.id.length = 20)
    (hbytes : ∀ c ∈ allBuckets table, ∀ x ∈ c.id, x < 256)
    (htarget : ∀ x ∈ target, x < 256)
    (hdistinct : (allBuckets table).Pairwise (fun a b => a.id ≠ b.id)) :
    findClosestNodes table target count = closestBySpec table target count
    ∧ findClosestNodes table target 0 = []
    ∧ ((allBuckets table).length ≤ count →
        findClosestNodes table target count
          = sortByLe (fun a b =>
              decide (bytesToNat a.2 < bytesToNat b.2)
              || (decide (bytesToNat a.2 = bytesToNat b.2)
                  && decide (a.1.address ≤ b.1.address)))
            ((allBuckets table).map (fun node => (node, xorDistance node.id target)))) := by
  have hagree : ∀ x ∈ (allBuckets table).map (fun node => (node, xorDistance node.id target)),
      ∀ y ∈ (allBuckets table).map (fun node => (node, xorDistance node.id target)),
      (fun a b => lexLE a.2 b.2) x y
        = (fun (a b : Contact × List Nat) =>
            decide (bytesToNat a.2 < bytesToNat b.2)
            || (decide (bytesToNat a.2 = bytesToNat b.2)
                && decide (a.1.address ≤ b.1.address))) x y := by
    intro x hx y hy
    rcases List.mem_map.mp hx with ⟨cx, hcx, rfl⟩
    rcases List.mem_map.mp hy with ⟨cy, hcy, rfl⟩
    show lexLE (xorDistance cx.id target) (xorDistance cy.id target)
      = (decide (bytesToNat (xorDistance cx.id target) < bytesToNat (xorDistance cy.id target))
          || (decide (bytesToNat (xorDistance cx.id target)
                = bytesToNat (xorDistance cy.id target))
              && decide (cx.address ≤ cy.address)))
    by_cases hxy : cx = cy
    · subst hxy
      rw [lexLE_refl]
      simp
    · have hne : cx.id ≠ cy.id :=
        List.Pairwise.forall (fun _ _ h2 => h2.symm) hdistinct hcx hcy hxy
      have hdlen : (xorDistance cx.id target).length = (xorDistance cy.id target).length := by
        simp [xorDistance, hlen cx hcx, hlen cy hcy]
      have hbx : ∀ t ∈ xorDistance cx.id target, t < 256 :=
        xorDistance_bytes_lt _ _ (hbytes cx hcx) htarget
      have hby : ∀ t ∈ xorDistance cy.id target, t < 256 :=
        xorDistance_bytes_lt _ _ (hbytes cy hcy) htarget
      have hdne : xorDistance cx.id target ≠ xorDistance cy.id target := by
        intro hcontra
        exact hne (xorDistance_inj cx.id cy.id target
          (by rw [hlen cx hcx, hlen cy hcy]) hcontra)
      have hNne : bytesToNat (xorDistance cx.id target)
          ≠ bytesToNat (xorDistance cy.id target) :=
        fun hcontra => hdne (bytesToNat_inj _ _ hdlen hbx hby hcontra)
      rcases Nat.lt_or_ge (bytesToNat (xorDistance cx.id target))
          (bytesToNat (xorDistance cy.id target)) with hlt | hge
      · have hL : lexLE (xorDistance cx.id target) (xorDistance cy.id target) = true :=
          (lexLE_iff_le _ _ hdlen hbx hby).mpr (le_of_lt hlt)
        rw [hL]
        simp [hlt]
      · have hgt : bytesToNat (xorDistance cy.id target)
            < bytesToNat (xorDistance cx.id target) :=
          lt_of_le_of_ne hge (Ne.symm hNne)
        have hL : lexLE (xorDistance cx.id target) (xorDistance cy.id target) = false := by
          cases hb2 : lexLE (xorDistance cx.id target) (xorDistance cy.id target) with
          | false => rfl
          | true =>
            have := (lexLE_iff_le _ _ hdlen hbx hby).mp hb2
            omega
        rw [hL]
        have h3 : ¬bytesToNat (xorDistance cx.id target)
            < bytesToNat (xorDistance cy.id target) := by omega
        simp [h3, hNne]
  refine ⟨?_, ?_, ?_⟩
  · unfold findClosestNodes closestBySpec
    rw [sortByLe_congr _ _ _ hagree]
  · simp [findClosestNodes]
  · intro hcount
    unfold findClosestNodes
    rw [sortByLe_congr _ _ _ hagree]
    apply List.take_of_length_le
    rw [length_sortByLe]
    simpa using hcount

/-- Witness for C7 on a concrete two-contact table. -/
theorem findClosestNodes_matches_sorted_spec_witness :
    findClosestNodes tableW7 (List.replicate 20 5) 0 = [] :=
  (findClosestNodes_matches_sorted_spec tableW7 (List.replicate 20 5) 0 (by decide)
    (by decide) (by decide) (by decide)).2.1

end AnonP2P
